import Mathlib

/-!
Verification of the buildpub release pipeline (src/buildpub/main.py).

Strings are modelled as `List Char` (Python `str`).  Python string
primitives used by the source (`in`, `.endswith`, slicing, `split`,
`lstrip`, `startswith`, `int(...)`, `str(...)`, `"...".join`) are given
executable shallow embeddings below, and the decision logic of the
program (`infer_image_name`, the auto-version bump in `main`, the
build-arg parsing in `main`, and the `run_pipeline` orchestration) is
translated from the source on top of them.
-/

namespace BuildPub

/-- Decides whether `p` is a prefix of `s` (Python `s.startswith(p)` view). -/
def isPre : List Char → List Char → Bool
  | [], _ => true
  | _ :: _, [] => false
  | x :: xs, y :: ys => x == y && isPre xs ys

/-- Decides whether `pat` occurs as a contiguous substring of `s`
(Python `pat in s`). -/
def hasSub : List Char → List Char → Bool
  | [], pat => isPre pat []
  | x :: t, pat => isPre pat (x :: t) || hasSub t pat

/-- Decides whether `p` is a suffix of `s` (Python `s.endswith(p)`). -/
def isSuf (p s : List Char) : Bool := isPre p.reverse s.reverse

/-- Splits `s` at the first occurrence of `c`, returning the pieces before
and after it (`s.split(c, 1)` when `c` occurs). -/
def splitFirst (c : Char) : List Char → Option (List Char × List Char)
  | [] => none
  | x :: xs =>
    if x == c then some ([], xs)
    else
      match splitFirst c xs with
      | some pr => some (x :: pr.1, pr.2)
      | none => none

/-- Python `s.split(c, 1)`: at most one split, so one or two pieces. -/
def pySplitMax1 (c : Char) (s : List Char) : List (List Char) :=
  match splitFirst c s with
  | none => [s]
  | some pr => [pr.1, pr.2]

/-- Python `s.split(c)`: splits at every occurrence of `c`; always returns
at least one (possibly empty) piece. -/
def splitOnC (c : Char) : List Char → List (List Char)
  | [] => [[]]
  | x :: xs =>
    let r := splitOnC c xs
    if x == c then [] :: r else (x :: r.headD []) :: r.tail

/-! ## Name inference (src/buildpub/main.py, `infer_image_name`) -/

/-- `if repo_url.endswith(".git"): repo_url = repo_url[:-4]` -/
def stripGit (s : List Char) : List Char :=
  if isSuf ".git".data s then s.take (s.length - 4) else s

/-- The http/https fallthrough of `infer_image_name`:
`parts = repo_url.split("/"); if len(parts) >= 2: return parts[-2] + "/" + parts[-1]; return None`. -/
def slashCase (url : List Char) : Option (List Char) :=
  if 2 ≤ (splitOnC '/' url).length then
    some ((splitOnC '/' url).dropLast.getLastD [] ++ '/' :: (splitOnC '/' url).getLastD [])
  else none

/-- `infer_image_name(repo_url)` from src/buildpub/main.py lines 80-101:
strip a `.git` suffix, then the ssh branch (`":" in url and "://" not in
url`, returning everything after the first `:` when the 1-bounded split
has two parts), then the slash fallthrough. -/
def infer_image_name (repoUrl : List Char) : Option (List Char) :=
  if hasSub (stripGit repoUrl) [':'] && !hasSub (stripGit repoUrl) "://".data then
    match pySplitMax1 ':' (stripGit repoUrl) with
    | [_, after] => some after
    | _ => slashCase (stripGit repoUrl)
  else slashCase (stripGit repoUrl)

/-- A URL of the shape `scheme://host/owner/repo`. -/
def mkUrl (scheme host owner repo : List Char) : List Char :=
  scheme ++ ':' :: '/' :: '/' :: (host ++ '/' :: (owner ++ '/' :: repo))

/-! ## Auto-version bump (src/buildpub/main.py, `main`, lines 246-272) -/

/-- ASCII whitespace stripped by Python `int(str)` before parsing. -/
def isPyWs (c : Char) : Bool :=
  c == ' ' || c == '\t' || c == '\n' || c == '\r' || c == '\x0b' || c == '\x0c'

/-- Continues parsing a Python decimal digit run: digits, with single
underscores allowed between digits only. -/
def pyDigitsGo : Nat → List Char → Option Nat
  | acc, [] => some acc
  | acc, '_' :: c :: rest =>
    if c.isDigit then pyDigitsGo (acc * 10 + (c.toNat - '0'.toNat)) rest else none
  | acc, c :: rest =>
    if c.isDigit then pyDigitsGo (acc * 10 + (c.toNat - '0'.toNat)) rest else none

/-- A nonempty Python decimal digit run (first character must be a digit). -/
def pyDigits : List Char → Option Nat
  | [] => none
  | c :: rest => if c.isDigit then pyDigitsGo (c.toNat - '0'.toNat) rest else none

/-- Python `s.strip()` (ASCII whitespace model). -/
def pyStripWs (s : List Char) : List Char :=
  ((s.dropWhile isPyWs).reverse.dropWhile isPyWs).reverse

/-- Python `int(s)` (ASCII model): surrounding whitespace, an optional
sign, then a digit run with optional single underscores between digits;
`none` when `int` would raise `ValueError`. -/
def pyInt? (s : List Char) : Option Int :=
  match pyStripWs s with
  | '+' :: rest => (pyDigits rest).map (fun n => (n : Int))
  | '-' :: rest => (pyDigits rest).map (fun n => -(n : Int))
  | t => (pyDigits t).map (fun n => (n : Int))

/-- Python `tag.lstrip('v')`: drops every leading `'v'`. -/
def lstripV (t : List Char) : List Char := t.dropWhile (fun c => c == 'v')

/-- Python `".".join(parts)`. -/
def joinDots (ps : List (List Char)) : List Char := List.intercalate ['.'] ps

/-- One step of the stable ascending insertion used to model Python's
stable `sorted(tags, key=commit time)`: an element is placed before the
first strictly larger key, after equal ones. -/
def ordIns (a : List Char × Int) : List (List Char × Int) → List (List Char × Int)
  | [] => [a]
  | b :: l => if a.2 ≤ b.2 then a :: b :: l else b :: ordIns a l

/-- `sorted(tags, key=lambda t: t.commit.committed_datetime)`: a stable
ascending sort by commit timestamp. -/
def sortTags : List (List Char × Int) → List (List Char × Int)
  | [] => []
  | a :: l => ordIns a (sortTags l)

/-- The auto-version logic of `main` (lines 246-272): tags are sorted by
commit time and the last is taken; with no tags the result is `v0.0.1`;
otherwise all leading `v`s are stripped, the remainder split on `.`; with
at least 3 parts whose last parses as an int, the last part is bumped,
parts are rejoined and a `v` re-prepended when the original tag started
with `v`; otherwise a warning is emitted and the caller's tag kept.
Returns the resulting tag and the number of warnings emitted. -/
def autoVersion (tags : List (List Char × Int)) (tag : List Char) : List Char × Nat :=
  match (sortTags tags).getLast? with
  | none => ("v0.0.1".data, 0)
  | some latest =>
    if 3 ≤ (splitOnC '.' (lstripV latest.1)).length then
      match pyInt? ((splitOnC '.' (lstripV latest.1)).getLastD []) with
      | some n =>
        (if isPre ['v'] latest.1 then
          'v' :: joinDots ((splitOnC '.' (lstripV latest.1)).dropLast
              ++ [(toString (n + 1)).data])
        else
          joinDots ((splitOnC '.' (lstripV latest.1)).dropLast
              ++ [(toString (n + 1)).data]), 0)
      | none => (tag, 1)
    else (tag, 1)

/-- Modelled from claim C3's words (not from the source): the original tag
with a (single) leading `v` stripped, the final part incremented by 1, all
parts rejoined with `.`, and `v` re-prepended exactly when the original
started with `v`. -/
def c3ClaimBump (t : List Char) : List Char :=
  let stripped := if isPre ['v'] t then t.tail else t
  let parts := splitOnC '.' stripped
  let joined := joinDots (parts.dropLast
      ++ [(toString ((pyInt? (parts.getLastD [])).getD 0 + 1)).data])
  if isPre ['v'] t then 'v' :: joined else joined

/-- Modelled from the amended claim C3's words: the original tag with ALL
leading `v` characters stripped (Python `lstrip('v')`), the final part
(which parses as `n`) incremented by 1, all parts rejoined with `.`, and a
single `v` re-prepended exactly when the original started with `v`. -/
def c3AmendedBump (t : List Char) (n : Int) : List Char :=
  if isPre ['v'] t then
    'v' :: joinDots ((splitOnC '.' (lstripV t)).dropLast ++ [(toString (n + 1)).data])
  else
    joinDots ((splitOnC '.' (lstripV t)).dropLast ++ [(toString (n + 1)).data])

/-! ## Build-argument parsing (src/buildpub/main.py, `main`, lines 284-291) -/

/-- Python dict assignment `d[k] = v` on an insertion-ordered association
list: an existing key keeps its position and gets the new value, a new key
is appended. -/
def dictUpdate : List (List Char × List Char) → List Char → List Char →
    List (List Char × List Char)
  | [], k, v => [(k, v)]
  | (k', v') :: rest, k, v =>
    if k' = k then (k, v) :: rest else (k', v') :: dictUpdate rest k v

/-- Python dict lookup on the association list. -/
def lookupKey : List (List Char × List Char) → List Char → Option (List Char)
  | [], _ => none
  | (k', v') :: rest, k => if k' = k then some v' else lookupKey rest k

/-- One iteration of the build-arg loop of `main` (lines 286-291):
`if '=' in arg: key, value = arg.split('=', 1); d[key] = value
else: warn`. -/
def buildArgStep (acc : List (List Char × List Char) × Nat) (arg : List Char) :
    List (List Char × List Char) × Nat :=
  if hasSub arg ['='] then
    match splitFirst '=' arg with
    | some kv => (dictUpdate acc.1 kv.1 kv.2, acc.2)
    | none => acc
  else (acc.1, acc.2 + 1)

/-- The build-arg parsing of `main`: returns the resulting map and the
number of warnings emitted for malformed entries. -/
def parse_build_args (args : List (List Char)) : List (List Char × List Char) × Nat :=
  args.foldl buildArgStep ([], 0)

/-- The pure map-building step on well-formed entries only (used to state
what `parse_build_args` computes). -/
def buildArgInsert (d : List (List Char × List Char)) (arg : List Char) :
    List (List Char × List Char) :=
  match splitFirst '=' arg with
  | some kv => dictUpdate d kv.1 kv.2
  | none => d

/-! ## Pipeline orchestration (src/buildpub/main.py, `run_pipeline`) -/

/-- Outcome of one collaborator call: success, reported failure, or an
exception of a kind the surrounding code does not catch. -/
inductive StepRes
  | ok
  | fail
  | exn
deriving DecidableEq

/-- A directory that cleanup could remove: the pipeline-owned temporary
directory created by `tempfile.mkdtemp()`, or an externally-owned local
path. -/
inductive Dir
  | tempDir
  | localDir (path : List Char)
deriving DecidableEq

/-- Observable collaborator events of one pipeline run. -/
inductive Ev
  | loginCalled
  | tempCreated
  | cloneCalled
  | buildCalled
  | pushCalled
  | removedDir (d : Dir)
deriving DecidableEq

/-- The arguments of `run_pipeline` (strings model Python values that may
be `None` or empty, both falsy). -/
structure Config where
  repoUrl : Option (List Char)
  branch : List Char
  imageName : Option (List Char)
  tag : List Char
  dockerfilePath : List Char
  username : Option (List Char)
  password : Option (List Char)
  registry : Option (List Char)
  localPath : Option (List Char)
deriving DecidableEq

/-- Oracle for the collaborators consulted during one run:
`docker.from_env` (all exceptions are caught), `client.login` (`APIError`
caught, others escape), `Repo.clone_from` (all exceptions caught),
`os.path.exists` on the Dockerfile, `client.images.build` (`BuildError`
and `APIError` caught, others escape), and `client.images.push`
(`APIError` caught, error chunks reported, others escape). -/
structure Env where
  connectOk : Bool
  loginRes : StepRes
  cloneOk : Bool
  dockerfileExists : Bool
  buildRes : StepRes
  pushRes : StepRes
deriving DecidableEq

/-- Python falsiness of an optional string (`not x`). -/
def strOptFalsy : Option (List Char) → Bool
  | none => true
  | some s => s.isEmpty

/-- `login_to_docker` (lines 103-116): skipped (returning True, no call)
when either credential is falsy; otherwise the login call happens and
`APIError` is reported as False while other exceptions escape. -/
def login_to_docker (cfg : Config) (env : Env) : Except Unit Bool × List Ev :=
  if strOptFalsy cfg.username || strOptFalsy cfg.password then (Except.ok true, [])
  else
    match env.loginRes with
    | StepRes.ok => (Except.ok true, [Ev.loginCalled])
    | StepRes.fail => (Except.ok false, [Ev.loginCalled])
    | StepRes.exn => (Except.error (), [Ev.loginCalled])

/-- `clone_repo` (lines 11-19): every exception is caught, so the result
is a plain boolean. -/
def clone_repo (env : Env) : Bool × List Ev := (env.cloneOk, [Ev.cloneCalled])

/-- `build_image` (lines 21-55): when the Dockerfile is missing the build
collaborator is not called and False is returned; otherwise the build call
happens and `BuildError`/`APIError` are reported as False while other
exceptions escape. -/
def build_image (env : Env) : Except Unit Bool × List Ev :=
  if !env.dockerfileExists then (Except.ok false, [])
  else
    match env.buildRes with
    | StepRes.ok => (Except.ok true, [Ev.buildCalled])
    | StepRes.fail => (Except.ok false, [Ev.buildCalled])
    | StepRes.exn => (Except.error (), [Ev.buildCalled])

/-- `push_image` (lines 57-75). -/
def push_image (env : Env) : Except Unit Bool × List Ev :=
  match env.pushRes with
  | StepRes.ok => (Except.ok true, [Ev.pushCalled])
  | StepRes.fail => (Except.ok false, [Ev.pushCalled])
  | StepRes.exn => (Except.error (), [Ev.pushCalled])

/-- Steps 4-5 of `run_pipeline`: build, short-circuit, push. -/
def buildAndPush (env : Env) : Except Unit Bool × List Ev :=
  match (build_image env).1 with
  | Except.error e => (Except.error e, (build_image env).2)
  | Except.ok false => (Except.ok false, (build_image env).2)
  | Except.ok true =>
    match (push_image env).1 with
    | Except.error e => (Except.error e, (build_image env).2 ++ (push_image env).2)
    | Except.ok b => (Except.ok b, (build_image env).2 ++ (push_image env).2)

/-- The `try` block of `run_pipeline` (lines 132-167): docker client
setup, login, context preparation (clone into a fresh temporary directory
when no local path is set), build and push.  Returns the outcome, the
events, and the temporary directory owned by the run, if any. -/
def runBody (cfg : Config) (env : Env) : Except Unit Bool × List Ev × Option Dir :=
  if !env.connectOk then (Except.ok false, [], none)
  else
    match (login_to_docker cfg env).1 with
    | Except.error e => (Except.error e, (login_to_docker cfg env).2, none)
    | Except.ok false => (Except.ok false, (login_to_docker cfg env).2, none)
    | Except.ok true =>
      if strOptFalsy cfg.localPath then
        if strOptFalsy cfg.repoUrl then
          (Except.ok false, (login_to_docker cfg env).2, none)
        else
          if (clone_repo env).1 then
            ((buildAndPush env).1,
             (login_to_docker cfg env).2 ++ [Ev.tempCreated] ++ (clone_repo env).2
               ++ (buildAndPush env).2,
             some Dir.tempDir)
          else
            (Except.ok false,
             (login_to_docker cfg env).2 ++ [Ev.tempCreated] ++ (clone_repo env).2,
             some Dir.tempDir)
      else
        ((buildAndPush env).1, (login_to_docker cfg env).2 ++ (buildAndPush env).2, none)

/-- `run_pipeline` (lines 118-173): the image-name validation happens
before the `try`, and the `finally` removes the temporary directory
exactly when one was created, on every exit path (including an escaping
exception). -/
def run_pipeline (cfg : Config) (env : Env) : Except Unit Bool × List Ev :=
  if strOptFalsy cfg.imageName then (Except.ok false, [])
  else
    match (runBody cfg env).2.2 with
    | some d => ((runBody cfg env).1, (runBody cfg env).2.1 ++ [Ev.removedDir d])
    | none => ((runBody cfg env).1, (runBody cfg env).2.1)

/-- Number of occurrences of event `e` in a trace. -/
def countEv (e : Ev) : List Ev → Nat
  | [] => 0
  | x :: t => (if x = e then 1 else 0) + countEv e t

/-- `login_to_docker` performs no registry call when either credential is
falsy. -/
def loginSkipped (cfg : Config) : Bool :=
  strOptFalsy cfg.username || strOptFalsy cfg.password

/-- The exact condition under which `run_pipeline` creates a temporary
directory: no local path, and the run reaches context preparation (image
name present, docker client obtained, login passed or skipped) with a
remote URL present. -/
def tempExpected (cfg : Config) (env : Env) : Bool :=
  !strOptFalsy cfg.imageName && env.connectOk &&
    (loginSkipped cfg ||
      (match env.loginRes with
       | StepRes.ok => true
       | _ => false)) &&
    strOptFalsy cfg.localPath && !strOptFalsy cfg.repoUrl

/-- A configuration with neither a remote URL nor a local path, but with
credentials supplied. -/
def cfgNoSource : Config :=
  { repoUrl := none, branch := "main".data, imageName := some "owner/repo".data,
    tag := "latest".data, dockerfilePath := "Dockerfile".data,
    username := some "user".data, password := some "pass".data,
    registry := none, localPath := none }

/-- A configuration with neither a remote URL nor a local path and no
credentials. -/
def cfgNoSourceNoCreds : Config :=
  { cfgNoSource with username := none, password := none }

/-- A remote-URL configuration without credentials. -/
def cfgRemote : Config :=
  { cfgNoSource with
    repoUrl := some "https://github.com/owner/repo.git".data,
    username := none,
    password := none }

/-- An environment in which every collaborator call succeeds. -/
def envAllOk : Env :=
  { connectOk := true, loginRes := StepRes.ok, cloneOk := true,
    dockerfileExists := true, buildRes := StepRes.ok, pushRes := StepRes.ok }

/-- `envAllOk`, except that the Dockerfile is missing. -/
def envNoDockerfile : Env := { envAllOk with dockerfileExists := false }

section UtilLemmas

theorem isPre_iff (p : List Char) : ∀ s, isPre p s = true ↔ ∃ t, s = p ++ t := by
  induction p with
  | nil => intro s; simp [isPre]
  | cons x xs ih =>
    intro s
    cases s with
    | nil => simp [isPre]
    | cons y ys =>
      simp only [isPre, Bool.and_eq_true, beq_iff_eq, ih]
      constructor
      · rintro ⟨hxy, t, ht⟩; exact ⟨t, by simp [hxy, ht]⟩
      · rintro ⟨t, ht⟩
        cases ht
        exact ⟨rfl, t, rfl⟩

theorem hasSub_iff : ∀ s pat, hasSub s pat = true ↔ ∃ x y, s = x ++ pat ++ y := by
  intro s
  induction s with
  | nil =>
    intro pat
    simp only [hasSub, isPre_iff]
    constructor
    · rintro ⟨t, ht⟩
      exact ⟨[], t, by simpa using ht⟩
    · rintro ⟨x, y, h⟩
      exact ⟨y, by rcases List.append_eq_nil.mp h.symm with ⟨h1, h2⟩;
                   rcases List.append_eq_nil.mp h1 with ⟨h3, h4⟩; simp [h4, h2]⟩
  | cons a t ih =>
    intro pat
    simp only [hasSub, Bool.or_eq_true, isPre_iff, ih]
    constructor
    · rintro (⟨u, hu⟩ | ⟨x, y, hxy⟩)
      · exact ⟨[], u, by simpa using hu⟩
      · exact ⟨a :: x, y, by simp [hxy]⟩
    · rintro ⟨x, y, hxy⟩
      cases x with
      | nil => exact Or.inl ⟨y, by simpa using hxy⟩
      | cons b x' =>
        right
        have : a = b ∧ t = x' ++ pat ++ y := by
          simpa using hxy
        exact ⟨x', y, this.2⟩

theorem hasSub_intro (x pat y : List Char) : hasSub (x ++ pat ++ y) pat = true :=
  (hasSub_iff _ _).mpr ⟨x, y, rfl⟩

theorem mem_of_hasSub {s pat : List Char} {c : Char}
    (h : hasSub s pat = true) (hc : c ∈ pat) : c ∈ s := by
  rcases (hasSub_iff s pat).mp h with ⟨x, y, rfl⟩
  simp [hc]

theorem hasSub_append_right {s r pat : List Char} (h : hasSub s pat = true) :
    hasSub (s ++ r) pat = true := by
  rcases (hasSub_iff s pat).mp h with ⟨x, y, rfl⟩
  have : x ++ pat ++ y ++ r = x ++ pat ++ (y ++ r) := by simp
  rw [this]
  exact hasSub_intro _ _ _

/-- An occurrence of a nonempty pattern in `t ++ u` whose characters all
avoid `u` lies entirely inside `t`. -/
theorem hasSub_of_append_disjoint {t u pat : List Char}
    (hne : pat ≠ []) (hdisj : ∀ c ∈ u, c ∉ pat)
    (h : hasSub (t ++ u) pat = true) : hasSub t pat = true := by
  rcases (hasSub_iff _ _).mp h with ⟨x, y, hxy⟩
  have h1 : x ++ (pat ++ y) = t ++ u := by simpa [List.append_assoc] using hxy.symm
  rcases List.append_eq_append_iff.mp h1 with ⟨a', ha1, ha2⟩ | ⟨c', hc1, hc2⟩
  · -- t = x ++ a',  pat ++ y = a' ++ u
    rcases List.append_eq_append_iff.mp ha2 with ⟨b', hb1, _⟩ | ⟨p', hp1, hp2⟩
    · -- a' = pat ++ b'
      apply (hasSub_iff _ _).mpr
      exact ⟨x, b', by rw [ha1, hb1]; simp⟩
    · -- pat = a' ++ p', u = p' ++ y
      cases p' with
      | nil =>
        apply (hasSub_iff _ _).mpr
        refine ⟨x, [], ?_⟩
        rw [ha1]
        simp [hp1]
      | cons ch rest =>
        exfalso
        have hmemu : ch ∈ u := by rw [hp2]; simp
        have hmemp : ch ∈ pat := by rw [hp1]; simp
        exact hdisj ch hmemu hmemp
  · -- x = t ++ c',  u = c' ++ (pat ++ y)
    exfalso
    rcases List.exists_cons_of_ne_nil hne with ⟨ch, rest, hp⟩
    have hmemp : ch ∈ pat := by rw [hp]; simp
    have hmemu : ch ∈ u := by rw [hc2, hp]; simp
    exact hdisj ch hmemu hmemp

theorem isSuf_iff (p s : List Char) : isSuf p s = true ↔ ∃ t, s = t ++ p := by
  unfold isSuf
  rw [isPre_iff]
  constructor
  · rintro ⟨t, ht⟩
    refine ⟨t.reverse, ?_⟩
    have := congrArg List.reverse ht
    simpa using this
  · rintro ⟨t, rfl⟩
    exact ⟨t.reverse, by simp⟩

theorem isSuf_concat (t p : List Char) : isSuf p (t ++ p) = true :=
  (isSuf_iff _ _).mpr ⟨t, rfl⟩

theorem take_len_append (a b : List Char) : (a ++ b).take a.length = a := by
  induction a with
  | nil => simp
  | cons x xs ih => simp [List.take_succ_cons, ih]

theorem splitFirst_append {c : Char} {a : List Char} (b : List Char) (ha : c ∉ a) :
    splitFirst c (a ++ c :: b) = some (a, b) := by
  induction a with
  | nil => simp [splitFirst]
  | cons x xs ih =>
    have hxc : ¬ (x == c) = true := by
      simp only [beq_iff_eq]
      intro h; exact ha (by simp [h])
    have hxs : c ∉ xs := fun h => ha (by simp [h])
    simp [splitFirst, hxc, ih hxs]

theorem splitOnC_length_pos (c : Char) : ∀ s, 0 < (splitOnC c s).length := by
  intro s
  cases s with
  | nil => simp [splitOnC]
  | cons x xs =>
    simp only [splitOnC]
    split <;> simp

theorem splitOnC_of_not_mem {c : Char} : ∀ {s : List Char}, c ∉ s → splitOnC c s = [s] := by
  intro s
  induction s with
  | nil => intro _; rfl
  | cons x xs ih =>
    intro h
    have hxc : ¬ (x == c) = true := by
      simp only [beq_iff_eq]
      intro hx; exact h (by simp [hx])
    have hxs : c ∉ xs := fun hx => h (by simp [hx])
    simp [splitOnC, hxc, ih hxs]

theorem splitOnC_append (c : Char) : ∀ (xs ys : List Char),
    splitOnC c (xs ++ c :: ys) = splitOnC c xs ++ splitOnC c ys := by
  intro xs ys
  induction xs with
  | nil => simp [splitOnC]
  | cons x xs ih =>
    by_cases hxc : (x == c) = true
    · simp [splitOnC, hxc, ih]
    · rcases hA : splitOnC c xs with _ | ⟨a0, A'⟩
      · exact absurd hA (by have := splitOnC_length_pos c xs; intro h; simp [h] at this)
      · simp [splitOnC, hxc, ih, hA]

theorem two_le_splitOnC_length {c : Char} {s : List Char} (h : c ∈ s) :
    2 ≤ (splitOnC c s).length := by
  rcases List.append_of_mem h with ⟨x, y, rfl⟩
  rw [splitOnC_append]
  have h1 := splitOnC_length_pos c x
  have h2 := splitOnC_length_pos c y
  simp only [List.length_append]
  omega

end UtilLemmas

section NameLemmas

theorem stripGit_concat (t : List Char) : stripGit (t ++ ".git".data) = t := by
  unfold stripGit
  rw [if_pos (isSuf_concat t _)]
  have hl : (t ++ ".git".data).length - 4 = t.length := by
    simp [List.length_append]
  rw [hl, take_len_append]

theorem stripGit_decomp (s : List Char) : ∃ r, s = stripGit s ++ r := by
  unfold stripGit
  split
  · exact ⟨s.drop (s.length - 4), (List.take_append_drop _ s).symm⟩
  · exact ⟨[], by simp⟩

/-- Occurrences of `":"` and `"://"` are unaffected by stripping the
`".git"` suffix: no character of `".git"` occurs in either pattern. -/
theorem hasSub_stripGit {s pat : List Char} (hne : pat ≠ [])
    (hdisj : ∀ c ∈ ".git".data, c ∉ pat) (h : hasSub s pat = true) :
    hasSub (stripGit s) pat = true := by
  unfold stripGit
  split
  · next hsuf =>
    rcases (isSuf_iff _ _).mp hsuf with ⟨t, rfl⟩
    have hl : (t ++ ".git".data).length - 4 = t.length := by
      simp [List.length_append]
    rw [hl, take_len_append]
    exact hasSub_of_append_disjoint hne hdisj h
  · exact h

theorem hasSub_of_stripGit {s pat : List Char} (h : hasSub (stripGit s) pat = true) :
    hasSub s pat = true := by
  rcases stripGit_decomp s with ⟨r, hr⟩
  rw [hr]
  exact hasSub_append_right h

/-- Computes `slashCase` on a url of the form `W/owner/repo` where the last
two segments contain no slash. -/
theorem slashCase_last_two (W owner repo : List Char)
    (how : '/' ∉ owner) (hre : '/' ∉ repo) :
    slashCase (W ++ '/' :: (owner ++ '/' :: repo)) = some (owner ++ '/' :: repo) := by
  unfold slashCase
  have hsplit : splitOnC '/' (W ++ '/' :: (owner ++ '/' :: repo))
      = (splitOnC '/' W ++ [owner]) ++ [repo] := by
    rw [splitOnC_append, splitOnC_append, splitOnC_of_not_mem how,
        splitOnC_of_not_mem hre]
    simp
  rw [hsplit]
  have hlen : 2 ≤ ((splitOnC '/' W ++ [owner]) ++ [repo]).length := by
    simp only [List.length_append, List.length_cons, List.length_nil]
    omega
  rw [if_pos hlen]
  rw [List.dropLast_concat, List.getLastD_concat, List.getLastD_concat]

theorem hasSub_scheme_mkUrl (scheme host owner repo : List Char) :
    hasSub (mkUrl scheme host owner repo) "://".data = true := by
  have h2 := hasSub_intro scheme "://".data (host ++ '/' :: (owner ++ '/' :: repo))
  have hd : "://".data = [':', '/', '/'] := rfl
  rw [hd] at h2 ⊢
  simpa [mkUrl, List.append_assoc] using h2

/-- A string whose final slash-separated segment does not itself end in
`".git"` does not end in `".git"`. -/
theorem not_gitSuf_slash (Z repo : List Char) (hg : isSuf ".git".data repo = false) :
    isSuf ".git".data ((Z ++ ['/']) ++ repo) = false := by
  cases hx : isSuf ".git".data ((Z ++ ['/']) ++ repo)
  · rfl
  · exfalso
    rcases (isSuf_iff _ _).mp hx with ⟨t, ht⟩
    rcases List.append_eq_append_iff.mp ht.symm with ⟨a', ha1, ha2⟩ | ⟨c', _, hc2⟩
    · -- Z ++ ['/'] = t ++ a',  ".git" = a' ++ repo
      cases a' with
      | nil =>
        have : isSuf ".git".data repo = true :=
          (isSuf_iff _ _).mpr ⟨[], by simpa using ha2.symm⟩
        rw [this] at hg; cases hg
      | cons ch rest =>
        have hlast : (Z ++ ['/']).getLast? = some '/' := List.getLast?_concat _
        have hlast2 : (t ++ ch :: rest).getLast? = (ch :: rest).getLast? := by
          rw [List.getLast?_append]
          cases hgl : (ch :: rest).getLast? with
          | none => simp at hgl
          | some z => simp [hgl]
        rw [ha1, hlast2] at hlast
        have hmem : '/' ∈ ch :: rest := by
          have hne : ch :: rest ≠ ([] : List Char) := by simp
          have := List.getLast?_eq_getLast (ch :: rest) hne
          rw [this] at hlast
          have : (ch :: rest).getLast hne = '/' := by
            injection hlast
          rw [← this]
          exact List.getLast_mem hne
        have : '/' ∈ ".git".data := by
          rw [ha2]
          exact List.mem_append_of_mem_left _ hmem
        simp at this
    · -- t = (Z ++ ['/']) ++ c',  repo = c' ++ ".git"
      have : isSuf ".git".data repo = true := (isSuf_iff _ _).mpr ⟨c', hc2⟩
      rw [this] at hg; cases hg

theorem stripGit_mkUrl (scheme host owner repo : List Char)
    (hg : isSuf ".git".data repo = false) :
    stripGit (mkUrl scheme host owner repo) = mkUrl scheme host owner repo := by
  have hz : mkUrl scheme host owner repo
      = ((scheme ++ ':' :: '/' :: '/' :: (host ++ '/' :: owner)) ++ ['/']) ++ repo := by
    simp [mkUrl]
  rw [stripGit, hz, not_gitSuf_slash _ _ hg]
  simp

theorem infer_of_strip_mkUrl {x : List Char} (scheme host owner repo : List Char)
    (how : '/' ∉ owner) (hre : '/' ∉ repo)
    (hs : stripGit x = mkUrl scheme host owner repo) :
    infer_image_name x = some (owner ++ '/' :: repo) := by
  have hsub : hasSub (stripGit x) "://".data = true := by
    rw [hs]; exact hasSub_scheme_mkUrl scheme host owner repo
  unfold infer_image_name
  rw [hsub]
  simp only [Bool.not_true, Bool.and_false, Bool.false_eq_true, if_false]
  rw [hs]
  have hw : mkUrl scheme host owner repo
      = (scheme ++ ':' :: '/' :: '/' :: host) ++ '/' :: (owner ++ '/' :: repo) := by
    simp [mkUrl]
  rw [hw]
  exact slashCase_last_two _ owner repo how hre

end NameLemmas

/-- Claim C5: for every URL string of the shape `scheme://host/owner/repo`,
optionally suffixed with `.git`, name inference returns exactly the string
`owner/repo` (the last two slash-separated segments joined by `/`). The
segments `owner` and `repo` contain no `/`, and `repo` does not itself end
in `.git` (otherwise the unsuffixed URL would be a `.git`-suffixed one). -/
theorem c5_http_url_name (scheme host owner repo : List Char)
    (how : '/' ∉ owner) (hre : '/' ∉ repo) (hg : isSuf ".git".data repo = false) :
    infer_image_name (mkUrl scheme host owner repo) = some (owner ++ '/' :: repo) ∧
    infer_image_name (mkUrl scheme host owner repo ++ ".git".data)
      = some (owner ++ '/' :: repo) :=
  ⟨infer_of_strip_mkUrl scheme host owner repo how hre
      (stripGit_mkUrl scheme host owner repo hg),
   infer_of_strip_mkUrl scheme host owner repo how hre (stripGit_concat _)⟩

/-- Witness for C5 at `https://github.com/user/repo(.git)`. -/
theorem c5_http_url_name_witness :
    ('/' ∉ "user".data ∧ '/' ∉ "repo".data ∧ isSuf ".git".data "repo".data = false) ∧
    (infer_image_name (mkUrl "https".data "github.com".data "user".data "repo".data)
        = some ("user".data ++ '/' :: "repo".data) ∧
     infer_image_name
        (mkUrl "https".data "github.com".data "user".data "repo".data ++ ".git".data)
        = some ("user".data ++ '/' :: "repo".data)) :=
  ⟨by decide,
   c5_http_url_name "https".data "github.com".data "user".data "repo".data
     (by decide) (by decide) (by decide)⟩

/-- Claim C6: for every string that contains `:` but not `://`, name
inference returns everything after the first `:` verbatim, the trailing
`.git` suffix being stripped first: if the `.git`-stripped string splits as
`a ++ ':' :: b` with no `:` in `a`, the result is `b`. -/
theorem c6_ssh_url_name (s a b : List Char)
    (hdec : stripGit s = a ++ ':' :: b) (ha : ':' ∉ a)
    (hn : hasSub s "://".data = false) :
    infer_image_name s = some b := by
  have hcolon : hasSub (stripGit s) [':'] = true := by
    rw [hdec]
    have h2 := hasSub_intro a [':'] b
    simpa using h2
  have hno : hasSub (stripGit s) "://".data = false := by
    cases hx : hasSub (stripGit s) "://".data
    · rfl
    · have := hasSub_of_stripGit hx
      simp [hn] at this
  have hps : pySplitMax1 ':' (stripGit s) = [a, b] := by
    unfold pySplitMax1
    rw [hdec, splitFirst_append b ha]
  unfold infer_image_name
  rw [hcolon, hno, hps]
  rfl

/-- Witness for C6 at `git@github.com:user/repo.git`. -/
theorem c6_ssh_url_name_witness :
    (stripGit "git@github.com:user/repo.git".data
        = "git@github.com".data ++ ':' :: "user/repo".data ∧
     ':' ∉ "git@github.com".data ∧
     hasSub "git@github.com:user/repo.git".data "://".data = false) ∧
    infer_image_name "git@github.com:user/repo.git".data = some "user/repo".data :=
  ⟨by decide,
   c6_ssh_url_name "git@github.com:user/repo.git".data "git@github.com".data
     "user/repo".data (by decide) (by decide) (by decide)⟩

/-- Claim C10: for every input string containing `://`, name inference never
reports failure; in particular `scheme://host` (no path segments) yields
`/host` rather than `cannot infer`. -/
theorem c10_scheme_url_total (s : List Char) (h : hasSub s "://".data = true) :
    (infer_image_name s).isSome = true ∧
    infer_image_name "scheme://host".data = some "/host".data := by
  constructor
  · have hu : hasSub (stripGit s) "://".data = true :=
      hasSub_stripGit (by decide) (by decide) h
    unfold infer_image_name
    rw [hu]
    simp only [Bool.not_true, Bool.and_false, Bool.false_eq_true, if_false]
    unfold slashCase
    have hmem : '/' ∈ stripGit s := mem_of_hasSub hu (by decide)
    rw [if_pos (two_le_splitOnC_length hmem)]
    rfl
  · decide

/-- Witness for C10 at `scheme://host`. -/
theorem c10_scheme_url_total_witness :
    hasSub "scheme://host".data "://".data = true ∧
    ((infer_image_name "scheme://host".data).isSome = true ∧
     infer_image_name "scheme://host".data = some "/host".data) :=
  ⟨by decide, c10_scheme_url_total "scheme://host".data (by decide)⟩

section VersionLemmas

theorem ordIns_ne_nil (a : List Char × Int) : ∀ l, ordIns a l ≠ [] := by
  intro l
  cases l with
  | nil => simp [ordIns]
  | cons b t =>
    rw [ordIns]
    split <;> simp

theorem mem_ordIns (a x : List Char × Int) :
    ∀ l, x ∈ ordIns a l ↔ x = a ∨ x ∈ l := by
  intro l
  induction l with
  | nil => simp [ordIns]
  | cons b t ih =>
    rw [ordIns]
    split
    · simp
    · simp only [List.mem_cons, ih]
      tauto

theorem mem_sortTags (x : List Char × Int) : ∀ l, x ∈ sortTags l ↔ x ∈ l := by
  intro l
  induction l with
  | nil => simp [sortTags]
  | cons a t ih =>
    rw [sortTags, mem_ordIns]
    simp [ih]

theorem getLast?_ordIns (a : List Char × Int) :
    ∀ l, (ordIns a l).getLast? =
      if ∀ y ∈ l, ¬ a.2 ≤ y.2 then some a else l.getLast? := by
  intro l
  induction l with
  | nil => simp [ordIns]
  | cons b t ih =>
    by_cases hab : a.2 ≤ b.2
    · rw [ordIns, if_pos hab, List.getLast?_cons_cons, if_neg]
      intro hc
      exact (hc b (by simp)) hab
    · rw [ordIns, if_neg hab]
      rcases hX : ordIns a t with _ | ⟨x, xs⟩
      · exact absurd hX (ordIns_ne_nil a t)
      · rw [List.getLast?_cons_cons, ← hX, ih]
        by_cases hall : ∀ y ∈ t, ¬ a.2 ≤ y.2
        · rw [if_pos hall, if_pos]
          intro y hy
          rcases List.mem_cons.mp hy with rfl | hyt
          · exact hab
          · exact hall y hyt
        · rw [if_neg hall, if_neg]
          · cases t with
            | nil => exact absurd (by simp) hall
            | cons c t' => rw [List.getLast?_cons_cons]
          · intro hc
            exact hall (fun y hy => hc y (by simp [hy]))

theorem sortTags_max : ∀ (l : List (List Char × Int)) (p : List Char × Int),
    (sortTags l).getLast? = some p → p ∈ l ∧ ∀ q ∈ l, q.2 ≤ p.2 := by
  intro l
  induction l with
  | nil => intro p hp; simp [sortTags] at hp
  | cons a t ih =>
    intro p hp
    rw [sortTags, getLast?_ordIns] at hp
    by_cases hall : ∀ y ∈ sortTags t, ¬ a.2 ≤ y.2
    · rw [if_pos hall] at hp
      injection hp with hpa
      subst hpa
      refine ⟨by simp, ?_⟩
      intro q hq
      rcases List.mem_cons.mp hq with rfl | hqt
      · exact le_refl _
      · have : q ∈ sortTags t := (mem_sortTags q t).mpr hqt
        exact le_of_not_le (hall q this)
    · rw [if_neg hall] at hp
      rcases ih p hp with ⟨hmem, hmax⟩
      push_neg at hall
      rcases hall with ⟨y, hy, hay⟩
      have hyt : y ∈ t := (mem_sortTags y t).mp hy
      refine ⟨by simp [hmem], ?_⟩
      intro q hq
      rcases List.mem_cons.mp hq with rfl | hqt
      · exact le_trans hay (hmax y hyt)
      · exact hmax q hqt

theorem sortTags_getLast?_some {l : List (List Char × Int)} (h : l ≠ []) :
    ∃ p, (sortTags l).getLast? = some p := by
  cases l with
  | nil => exact absurd rfl h
  | cons a t =>
    rw [sortTags]
    rcases hg : (ordIns a (sortTags t)).getLast? with _ | p
    · exact absurd (List.getLast?_eq_none_iff.mp hg) (ordIns_ne_nil a (sortTags t))
    · exact ⟨p, rfl⟩

end VersionLemmas

/-- Claim C7: when auto-versioning runs on an empty tag list, the resulting
tag is the literal string `v0.0.1` (and no warning is emitted). -/
theorem c7_empty_tags (tag : List Char) : autoVersion [] tag = ("v0.0.1".data, 0) := rfl

/-- Claim C8: when the latest tag (the one selected by the timestamp sort)
splits into fewer than 3 dot-separated parts after stripping leading `v`s,
or its final part does not parse as an integer, auto-versioning leaves the
caller's tag unchanged and emits exactly one warning. -/
theorem c8_malformed_tag (tags : List (List Char × Int)) (tag : List Char)
    (p : List Char × Int) (hp : (sortTags tags).getLast? = some p)
    (hbad : (splitOnC '.' (lstripV p.1)).length < 3 ∨
            pyInt? ((splitOnC '.' (lstripV p.1)).getLastD []) = none) :
    autoVersion tags tag = (tag, 1) := by
  by_cases hlen : 3 ≤ (splitOnC '.' (lstripV p.1)).length
  · rcases hbad with hl | hparse
    · omega
    · simp [autoVersion, hp, hlen, hparse, -List.getLastD_eq_getLast?]
  · simp [autoVersion, hp, hlen]

/-- Witness for C8 at the single tag `release-1`. -/
theorem c8_malformed_tag_witness :
    ((sortTags [("release-1".data, (0 : Int))]).getLast?
        = some ("release-1".data, (0 : Int)) ∧
      (splitOnC '.' (lstripV "release-1".data)).length < 3) ∧
    autoVersion [("release-1".data, (0 : Int))] "latest".data = ("latest".data, 1) :=
  ⟨by decide,
   c8_malformed_tag [("release-1".data, (0 : Int))] "latest".data
     ("release-1".data, (0 : Int)) (by decide) (Or.inl (by decide))⟩

/-- Claim C3 counterexample: at the single tag `vv1.2.3` (which splits into
3 dot-separated parts whose final part is the integer 3), the transform the
claim describes — strip a (single) leading `v`, bump, re-prepend `v` —
yields `vv1.2.4`, but the code, whose `lstrip('v')` strips ALL leading
`v`s, yields `v1.2.4`. -/
theorem c3_counterexample :
    3 ≤ (splitOnC '.' "vv1.2.3".data).length ∧
    (pyInt? ((splitOnC '.' "vv1.2.3".data).getLastD [])).isSome = true ∧
    c3ClaimBump "vv1.2.3".data = "vv1.2.4".data ∧
    (autoVersion [("vv1.2.3".data, (0 : Int))] "latest".data).1 = "v1.2.4".data ∧
    "v1.2.4".data ≠ "vv1.2.4".data := by
  refine ⟨by decide, by decide, by decide, by decide, by decide⟩

/-- Claim C3 (amended): for every non-empty tag list, version inference
selects a tag with maximal commit timestamp, and if that tag, with ALL
leading `v` characters stripped (Python `lstrip('v')`), splits into at
least 3 dot-separated parts whose final part parses as an integer `n`, the
resulting tag is that stripped string with the final part replaced by
`n + 1`, parts rejoined with `.`, and a single `v` prepended exactly when
the original tag started with `v` (e.g. latest tag `v1.3.0` yields
`v1.3.1`). -/
theorem c3_latest_bump (tags : List (List Char × Int)) (tag : List Char)
    (hne : tags ≠ []) :
    ∃ p, (sortTags tags).getLast? = some p ∧ p ∈ tags ∧ (∀ q ∈ tags, q.2 ≤ p.2) ∧
      (3 ≤ (splitOnC '.' (lstripV p.1)).length →
        ∀ n, pyInt? ((splitOnC '.' (lstripV p.1)).getLastD []) = some n →
          autoVersion tags tag = (c3AmendedBump p.1 n, 0)) := by
  rcases sortTags_getLast?_some hne with ⟨p, hp⟩
  rcases sortTags_max tags p hp with ⟨hmem, hmax⟩
  refine ⟨p, hp, hmem, hmax, ?_⟩
  intro hlen n hn
  simp [autoVersion, hp, hlen, hn, c3AmendedBump, -List.getLastD_eq_getLast?]

/-- Witness for C3 (amended) at the spec's example tag list
`[(v1.2.3, 0), (v1.3.0, 1)]`, which the code bumps to `v1.3.1`. -/
theorem c3_latest_bump_witness :
    ([(("v1.2.3").data, (0 : Int)), (("v1.3.0").data, (1 : Int))]
        ≠ ([] : List (List Char × Int))) ∧
    (∃ p, (sortTags [(("v1.2.3").data, (0 : Int)), (("v1.3.0").data, (1 : Int))]).getLast?
            = some p ∧
          p ∈ [(("v1.2.3").data, (0 : Int)), (("v1.3.0").data, (1 : Int))] ∧
          (∀ q ∈ [(("v1.2.3").data, (0 : Int)), (("v1.3.0").data, (1 : Int))], q.2 ≤ p.2) ∧
          (3 ≤ (splitOnC '.' (lstripV p.1)).length →
            ∀ n, pyInt? ((splitOnC '.' (lstripV p.1)).getLastD []) = some n →
              autoVersion [(("v1.2.3").data, (0 : Int)), (("v1.3.0").data, (1 : Int))]
                  "latest".data = (c3AmendedBump p.1 n, 0))) ∧
    autoVersion [(("v1.2.3").data, (0 : Int)), (("v1.3.0").data, (1 : Int))] "latest".data
        = ("v1.3.1".data, 0) :=
  ⟨by decide,
   c3_latest_bump [(("v1.2.3").data, (0 : Int)), (("v1.3.0").data, (1 : Int))]
     "latest".data (by decide),
   by decide⟩

section BuildArgLemmas

theorem splitFirst_isSome_of_mem {c : Char} :
    ∀ {a : List Char}, c ∈ a → (splitFirst c a).isSome = true := by
  intro a
  induction a with
  | nil => intro h; simp at h
  | cons x xs ih =>
    intro h
    rw [splitFirst]
    by_cases hx : (x == c) = true
    · simp [hx]
    · rcases List.mem_cons.mp h with heq | h2
      · exact absurd (by simp [heq]) hx
      · rcases Option.isSome_iff_exists.mp (ih h2) with ⟨pr, hpr⟩
        simp [hx, hpr]

theorem parse_build_args_foldl : ∀ (args : List (List Char)) d n,
    args.foldl buildArgStep (d, n) =
      ((args.filter fun a => hasSub a ['=']).foldl buildArgInsert d,
       n + (args.filter fun a => !hasSub a ['=']).length) := by
  intro args
  induction args with
  | nil => intro d n; simp
  | cons a t ih =>
    intro d n
    by_cases ha : hasSub a ['='] = true
    · rcases hsp : splitFirst '=' a with _ | kv
      · simp [List.foldl_cons, buildArgStep, ha, hsp, ih, buildArgInsert,
          List.filter_cons]
      · simp [List.foldl_cons, buildArgStep, ha, hsp, ih, buildArgInsert,
          List.filter_cons]
    · simp only [List.foldl_cons, buildArgStep, ha, List.filter_cons]
      rw [ih]
      simp [ha]
      omega

theorem lookupKey_dictUpdate_self : ∀ d (k v : List Char),
    lookupKey (dictUpdate d k v) k = some v := by
  intro d
  induction d with
  | nil => intro k v; simp [dictUpdate, lookupKey]
  | cons p rest ih =>
    intro k v
    rcases p with ⟨a, b⟩
    rw [dictUpdate]
    by_cases hk : a = k
    · rw [if_pos hk, lookupKey, if_pos rfl]
    · rw [if_neg hk, lookupKey, if_neg hk]
      exact ih k v

theorem lookupKey_dictUpdate_ne : ∀ d (k v k' : List Char), k ≠ k' →
    lookupKey (dictUpdate d k v) k' = lookupKey d k' := by
  intro d
  induction d with
  | nil =>
    intro k v k' hne
    simp [dictUpdate, lookupKey, hne]
  | cons p rest ih =>
    intro k v k' hne
    rcases p with ⟨a, b⟩
    rw [dictUpdate]
    by_cases hak : a = k
    · subst hak
      rw [if_pos rfl, lookupKey, if_neg hne, lookupKey, if_neg hne]
    · rw [if_neg hak, lookupKey, lookupKey]
      by_cases hak' : a = k'
      · rw [if_pos hak', if_pos hak']
      · rw [if_neg hak', if_neg hak', ih _ _ _ hne]

theorem lookup_buildArgInsert_mono (arg : List Char) (d : List (List Char × List Char))
    (k : List Char) (h : (lookupKey d k).isSome = true) :
    (lookupKey (buildArgInsert d arg) k).isSome = true := by
  unfold buildArgInsert
  rcases hsp : splitFirst '=' arg with _ | kv
  · exact h
  · by_cases hk : kv.1 = k
    · subst hk
      rw [lookupKey_dictUpdate_self]
      rfl
    · rw [lookupKey_dictUpdate_ne d kv.1 kv.2 k hk]
      exact h

theorem lookup_foldl_mono : ∀ (l : List (List Char)) d (k : List Char),
    (lookupKey d k).isSome = true →
    (lookupKey (l.foldl buildArgInsert d) k).isSome = true := by
  intro l
  induction l with
  | nil => intro d k h; simpa
  | cons a t ih =>
    intro d k h
    rw [List.foldl_cons]
    exact ih _ _ (lookup_buildArgInsert_mono a d k h)

theorem buildArg_key_present : ∀ (l : List (List Char)) d (a : List Char) kv,
    a ∈ l → splitFirst '=' a = some kv →
    (lookupKey (l.foldl buildArgInsert d) kv.1).isSome = true := by
  intro l
  induction l with
  | nil => intro d a kv h; intro _; simp at h
  | cons b t ih =>
    intro d a kv hmem hsp
    rw [List.foldl_cons]
    rcases List.mem_cons.mp hmem with rfl | ht
    · apply lookup_foldl_mono
      unfold buildArgInsert
      rw [hsp, lookupKey_dictUpdate_self]
      rfl
    · exact ih _ a kv ht hsp

end BuildArgLemmas

/-- Claim C9: for every list of build-arg strings, the warning count is the
number of entries without `=`; entries with `=` are processed, in order, by
splitting on the first `=` and entering the key/value pair into the map (so
every such entry's key is present in the resulting map); in particular
`["A=1", "BAD", "B=2"]` yields the map `{A:1, B:2}` and one warning. -/
theorem c9_build_args (args : List (List Char)) :
    (parse_build_args args).2 = (args.filter fun a => !hasSub a ['=']).length ∧
    (parse_build_args args).1
      = (args.filter fun a => hasSub a ['=']).foldl buildArgInsert [] ∧
    (∀ a ∈ args, hasSub a ['='] = true →
      ∃ kv, splitFirst '=' a = some kv ∧
        (lookupKey (parse_build_args args).1 kv.1).isSome = true) ∧
    parse_build_args ["A=1".data, "BAD".data, "B=2".data]
      = ([("A".data, "1".data), ("B".data, "2".data)], 1) := by
  have hfold := parse_build_args_foldl args [] 0
  refine ⟨?_, ?_, ?_, by decide⟩
  · rw [parse_build_args, hfold]
    simp
  · rw [parse_build_args, hfold]
  · intro a hmem hsub
    have hc : '=' ∈ a := mem_of_hasSub hsub (by simp)
    rcases Option.isSome_iff_exists.mp (splitFirst_isSome_of_mem hc) with ⟨kv, hkv⟩
    refine ⟨kv, hkv, ?_⟩
    rw [parse_build_args, hfold]
    exact buildArg_key_present _ [] a kv (List.mem_filter.mpr ⟨hmem, hsub⟩) hkv

section PipelineLemmas

theorem countEv_append (e : Ev) : ∀ l1 l2, countEv e (l1 ++ l2) = countEv e l1 + countEv e l2 := by
  intro l1 l2
  induction l1 with
  | nil => simp [countEv]
  | cons x t ih =>
    show (if x = e then 1 else 0) + countEv e (t ++ l2)
      = ((if x = e then 1 else 0) + countEv e t) + countEv e l2
    rw [ih]
    omega

theorem bp_count_temp (env : Env) : countEv Ev.tempCreated (buildAndPush env).2 = 0 := by
  cases hdf : env.dockerfileExists <;> cases hbr : env.buildRes <;>
    cases hpr : env.pushRes <;>
      simp [buildAndPush, build_image, push_image, hdf, hbr, hpr, countEv]

theorem bp_count_removed (env : Env) (d : Dir) :
    countEv (Ev.removedDir d) (buildAndPush env).2 = 0 := by
  cases hdf : env.dockerfileExists <;> cases hbr : env.buildRes <;>
    cases hpr : env.pushRes <;>
      simp [buildAndPush, build_image, push_image, hdf, hbr, hpr, countEv]

theorem bp_not_mem_removed (env : Env) (d : Dir) :
    Ev.removedDir d ∉ (buildAndPush env).2 := by
  cases hdf : env.dockerfileExists <;> cases hbr : env.buildRes <;>
    cases hpr : env.pushRes <;>
      simp [buildAndPush, build_image, push_image, hdf, hbr, hpr]

theorem buildAndPush_noDockerfile (env : Env) (hdf : env.dockerfileExists = false) :
    buildAndPush env = (Except.ok false, []) := by
  simp [buildAndPush, build_image, hdf]

end PipelineLemmas

/-- Claim C1 counterexample: a run with neither a local path nor a remote
URL creates no temporary directory even though no local path was supplied,
refuting "a temporary build context directory is created if and only if no
local path was supplied". -/
theorem c1_counterexample :
    strOptFalsy cfgNoSourceNoCreds.localPath = true ∧
    run_pipeline cfgNoSourceNoCreds envAllOk = (Except.ok false, []) ∧
    countEv Ev.tempCreated (run_pipeline cfgNoSourceNoCreds envAllOk).2 = 0 :=
  ⟨rfl, rfl, rfl⟩

/-- Claim C1 (amended): a temporary build-context directory is created only
if no local path was supplied — exactly when, in addition, the run reaches
context preparation (image name present, docker client obtained, login
passed or skipped) with a remote URL present; if created it is removed
exactly once on every exit path (success, any step's failure, or an
escaping exception), and a supplied local path is never deleted on
cleanup. -/
theorem c1_temp_lifecycle (cfg : Config) (env : Env) :
    countEv Ev.tempCreated (run_pipeline cfg env).2
      = (if tempExpected cfg env then 1 else 0) ∧
    countEv (Ev.removedDir Dir.tempDir) (run_pipeline cfg env).2
      = countEv Ev.tempCreated (run_pipeline cfg env).2 ∧
    ∀ p, Ev.removedDir (Dir.localDir p) ∉ (run_pipeline cfg env).2 := by
  unfold run_pipeline runBody login_to_docker clone_repo tempExpected loginSkipped
  cases him : strOptFalsy cfg.imageName <;>
    cases hc : env.connectOk <;>
      cases hls : (strOptFalsy cfg.username || strOptFalsy cfg.password) <;>
        cases hlr : env.loginRes <;>
          cases hlp : strOptFalsy cfg.localPath <;>
            cases hru : strOptFalsy cfg.repoUrl <;>
              cases hcl : env.cloneOk <;>
                simp_all [countEv_append, bp_count_temp, bp_count_removed,
                  bp_not_mem_removed, countEv]

/-- Claim C2 counterexample: with credentials supplied and neither a remote
URL nor a local path, the registry login collaborator IS invoked before the
configuration error is reported, refuting "fails before any collaborator
call (no registry login ...)". -/
theorem c2_counterexample :
    strOptFalsy cfgNoSource.repoUrl = true ∧
    strOptFalsy cfgNoSource.localPath = true ∧
    countEv Ev.loginCalled (run_pipeline cfgNoSource envAllOk).2 = 1 ∧
    run_pipeline cfgNoSource envAllOk = (Except.ok false, [Ev.loginCalled]) :=
  ⟨rfl, rfl, rfl, rfl⟩

/-- Claim C2 (amended): when neither a remote repository URL nor a local
path is resolvable, the pipeline fails (never returns success) and no
clone, no build, and no push is invoked; registry login is only invoked
first when credentials were supplied (with credentials absent no login
call occurs either). -/
theorem c2_no_source (cfg : Config) (env : Env)
    (hru : strOptFalsy cfg.repoUrl = true) (hlp : strOptFalsy cfg.localPath = true) :
    (run_pipeline cfg env).1 ≠ Except.ok true ∧
    Ev.cloneCalled ∉ (run_pipeline cfg env).2 ∧
    Ev.buildCalled ∉ (run_pipeline cfg env).2 ∧
    Ev.pushCalled ∉ (run_pipeline cfg env).2 ∧
    (loginSkipped cfg = true → Ev.loginCalled ∉ (run_pipeline cfg env).2) := by
  unfold run_pipeline runBody login_to_docker clone_repo loginSkipped
  cases him : strOptFalsy cfg.imageName <;>
    cases hc : env.connectOk <;>
      cases hls : (strOptFalsy cfg.username || strOptFalsy cfg.password) <;>
        cases hlr : env.loginRes <;>
          simp_all

/-- Witness for C2 (amended) at a credential-free no-source configuration. -/
theorem c2_no_source_witness :
    (strOptFalsy cfgNoSourceNoCreds.repoUrl = true ∧
     strOptFalsy cfgNoSourceNoCreds.localPath = true) ∧
    ((run_pipeline cfgNoSourceNoCreds envAllOk).1 ≠ Except.ok true ∧
     Ev.cloneCalled ∉ (run_pipeline cfgNoSourceNoCreds envAllOk).2 ∧
     Ev.buildCalled ∉ (run_pipeline cfgNoSourceNoCreds envAllOk).2 ∧
     Ev.pushCalled ∉ (run_pipeline cfgNoSourceNoCreds envAllOk).2 ∧
     (loginSkipped cfgNoSourceNoCreds = true →
       Ev.loginCalled ∉ (run_pipeline cfgNoSourceNoCreds envAllOk).2)) :=
  ⟨⟨rfl, rfl⟩, c2_no_source cfgNoSourceNoCreds envAllOk rfl rfl⟩

/-- Claim C4: whenever the Dockerfile does not exist at
`context_root/dockerfile_path`, the build collaborator is never invoked,
cleanup still executes (the temporary directory, if created, is removed),
and the run reports failure rather than crashing (no escaping exception
unless the earlier login raised one). -/
theorem c4_missing_dockerfile (cfg : Config) (env : Env)
    (hdf : env.dockerfileExists = false) :
    Ev.buildCalled ∉ (run_pipeline cfg env).2 ∧
    countEv (Ev.removedDir Dir.tempDir) (run_pipeline cfg env).2
      = countEv Ev.tempCreated (run_pipeline cfg env).2 ∧
    (run_pipeline cfg env).1 ≠ Except.ok true ∧
    (env.loginRes ≠ StepRes.exn → (run_pipeline cfg env).1 ≠ Except.error ()) := by
  have hbp := buildAndPush_noDockerfile env hdf
  unfold run_pipeline runBody login_to_docker clone_repo
  cases him : strOptFalsy cfg.imageName <;>
    cases hc : env.connectOk <;>
      cases hls : (strOptFalsy cfg.username || strOptFalsy cfg.password) <;>
        cases hlr : env.loginRes <;>
          cases hlp : strOptFalsy cfg.localPath <;>
            cases hru : strOptFalsy cfg.repoUrl <;>
              cases hcl : env.cloneOk <;>
                simp_all [countEv]

/-- Witness for C4 at a remote-URL run whose Dockerfile is missing. -/
theorem c4_missing_dockerfile_witness :
    envNoDockerfile.dockerfileExists = false ∧
    (Ev.buildCalled ∉ (run_pipeline cfgRemote envNoDockerfile).2 ∧
     countEv (Ev.removedDir Dir.tempDir) (run_pipeline cfgRemote envNoDockerfile).2
       = countEv Ev.tempCreated (run_pipeline cfgRemote envNoDockerfile).2 ∧
     (run_pipeline cfgRemote envNoDockerfile).1 ≠ Except.ok true ∧
     (envNoDockerfile.loginRes ≠ StepRes.exn →
       (run_pipeline cfgRemote envNoDockerfile).1 ≠ Except.error ())) :=
  ⟨rfl, c4_missing_dockerfile cfgRemote envNoDockerfile rfl⟩

end BuildPub
